import Mathlib

/-!
# DecentraStore — verification of the replication-and-consensus core

Shallow embedding of the Python sources of the `decentra-store` repository:

* `shared/chunker.py`  — Merkle-root computation over chunk hashes
* `shared/crypto.py`   — AES-256-GCM chunk encryption wrappers
* `shared/blockchain.py` — the consensus ledger (blocks, confirmations, load-time validation)
* `node/storage_node.py` — the peer content store (`/store` endpoint)
* `backend/uploader.py` — latency-based peer selection
* `backend/app.py`     — the download (retrieval) generator

Bytes are modelled as `List Nat` (one `Nat` per octet).  The SHA-256
compression function itself is `hashlib` library code, not part of this
repository, so it enters the embedding as an explicit function parameter
(`sha256 : Bytes → Bytes` returning the raw 32-byte digest, or
`sha256s : String → String` returning the hex digest of a UTF-8 string);
every structural theorem below holds for every instantiation of that
parameter.  Likewise the AES-GCM AEAD primitive (the `cryptography`
package) is a parameter together with the contract its documentation
states.  Everything written in the repository itself is translated
directly from the Python source.
-/

namespace DecentraStore

/-- A byte string: one `Nat` per octet. -/
abbrev Bytes := List Nat

/-! ## Hexadecimal encoding (Python `bytes.hex` / `bytes.fromhex`) -/

/-- The sixteen lowercase hex digits, as `bytes.hex` produces them. -/
def hexDigit (n : Nat) : Char :=
  (String.toList "0123456789abcdef").getD n '0'

/-- Hex encoding of a single byte (two lowercase digits), as in `bytes.hex()`. -/
def byteToHexChars (b : Nat) : List Char :=
  [hexDigit (b / 16 % 16), hexDigit (b % 16)]

/-- Python `bytes.hex()`: lowercase hex string of a byte string. -/
def toHex (bs : Bytes) : String :=
  String.mk (bs.flatMap byteToHexChars)

/-- Value of one hex digit character (`bytes.fromhex` accepts both cases). -/
def hexVal (c : Char) : Nat :=
  if '0' ≤ c ∧ c ≤ '9' then c.toNat - '0'.toNat
  else if 'a' ≤ c ∧ c ≤ 'f' then c.toNat - 'a'.toNat + 10
  else if 'A' ≤ c ∧ c ≤ 'F' then c.toNat - 'A'.toNat + 10
  else 0

/-- Decode a hex character list two digits at a time (`bytes.fromhex`). -/
def fromHexChars : List Char → Bytes
  | c1 :: c2 :: rest => (16 * hexVal c1 + hexVal c2) :: fromHexChars rest
  | _ => []

/-- Python `bytes.fromhex`: decode a hex string to bytes. -/
def fromHex (s : String) : Bytes :=
  fromHexChars s.toList

/-- Python `str.lower()` (used by hash comparisons in the source). -/
def strLower (s : String) : String :=
  String.mk (s.toList.map Char.toLower)

/-! ## `shared/chunker.py` -/

namespace Chunker

/-- `sha256_bytes(data)`: SHA-256 hex digest of a byte string
(`hashlib.sha256(data).hexdigest()`), with the digest function a parameter. -/
def sha256_bytes (sha256 : Bytes → Bytes) (data : Bytes) : String :=
  toHex (sha256 data)

/-- The `for i in range(0, len(layer), 2)` pairing loop of
`compute_merkle_root`: parent = SHA-256 of the two adjacent raw digests.
The singleton arm is unreachable in the source (the layer always has even
length after the odd-duplication step); it is completed with the identity. -/
def pairUp (sha256 : Bytes → Bytes) : List Bytes → List Bytes
  | x :: y :: rest => sha256 (x ++ y) :: pairUp sha256 rest
  | [x] => [x]
  | [] => []

/-- `layer.append(layer[-1])`: duplicate the last element (the source only
runs this on non-empty layers of odd length; the `[]` arm is for totality). -/
def dupLast : List Bytes → List Bytes
  | [] => []
  | [x] => [x, x]
  | x :: y :: rest => x :: dupLast (y :: rest)

/-- The body of the `while len(layer) > 1` loop: if the node count is odd,
duplicate the last node, then hash adjacent pairs. -/
def merkleLevel (sha256 : Bytes → Bytes) (layer : List Bytes) : List Bytes :=
  pairUp sha256 (if layer.length % 2 = 1 then dupLast layer else layer)

/-- Specification-side single level, written from the spec's words: parents
are SHA-256 over the concatenation of two adjacent raw digests, and the
unpaired last node of an odd level is paired with its own duplicate. -/
def parentLevel (sha256 : Bytes → Bytes) : List Bytes → List Bytes
  | x :: y :: rest => sha256 (x ++ y) :: parentLevel sha256 rest
  | [x] => [sha256 (x ++ x)]
  | [] => []

theorem parentLevel_length (sha256 : Bytes → Bytes) :
    ∀ l : List Bytes, (parentLevel sha256 l).length = (l.length + 1) / 2
  | [] => by simp [parentLevel]
  | [x] => by simp [parentLevel]
  | x :: y :: rest => by
    simp only [parentLevel, List.length_cons, parentLevel_length sha256 rest]
    omega

theorem pairUp_dupLast_eq_parentLevel (sha256 : Bytes → Bytes) :
    ∀ l : List Bytes, l.length % 2 = 1 →
      pairUp sha256 (dupLast l) = parentLevel sha256 l
  | [], h => by simp at h
  | [x], _ => by simp [dupLast, pairUp, parentLevel]
  | [x, y], h => by simp at h
  | x :: y :: z :: rest, h => by
    have hr : (z :: rest).length % 2 = 1 := by
      simp only [List.length_cons] at h ⊢; omega
    simp only [dupLast, pairUp, parentLevel]
    rw [pairUp_dupLast_eq_parentLevel sha256 (z :: rest) hr]

theorem pairUp_eq_parentLevel_of_even (sha256 : Bytes → Bytes) :
    ∀ l : List Bytes, l.length % 2 = 0 →
      pairUp sha256 l = parentLevel sha256 l
  | [], _ => rfl
  | [x], h => by simp at h
  | x :: y :: rest, h => by
    have hr : rest.length % 2 = 0 := by
      simp only [List.length_cons] at h; omega
    simp only [pairUp, parentLevel]
    rw [pairUp_eq_parentLevel_of_even sha256 rest hr]

/-- The implementation's level body equals the spec's level on every layer. -/
theorem merkleLevel_eq_parentLevel (sha256 : Bytes → Bytes) (layer : List Bytes) :
    merkleLevel sha256 layer = parentLevel sha256 layer := by
  unfold merkleLevel
  by_cases h : layer.length % 2 = 1
  · rw [if_pos h, pairUp_dupLast_eq_parentLevel sha256 layer h]
  · rw [if_neg h, pairUp_eq_parentLevel_of_even sha256 layer (by omega)]

theorem merkleLevel_length (sha256 : Bytes → Bytes) (layer : List Bytes) :
    (merkleLevel sha256 layer).length = (layer.length + 1) / 2 := by
  rw [merkleLevel_eq_parentLevel, parentLevel_length]

/-- The `while len(layer) > 1` loop of `compute_merkle_root`. -/
def merkleLoop (sha256 : Bytes → Bytes) (layer : List Bytes) : List Bytes :=
  if h : 1 < layer.length then
    have : (merkleLevel sha256 layer).length < layer.length := by
      rw [merkleLevel_length]; omega
    merkleLoop sha256 (merkleLevel sha256 layer)
  else layer
termination_by layer.length

/-- `compute_merkle_root(chunk_hashes)` from `shared/chunker.py`:
empty list ⇒ SHA-256 of the empty byte string; otherwise decode the hex
leaves to raw digests, fold levels (duplicating the last node of an odd
level) until one node remains, and hex-encode the survivor
(`layer[0].hex()`). -/
def compute_merkle_root (sha256 : Bytes → Bytes) (chunk_hashes : List String) : String :=
  if chunk_hashes.isEmpty then toHex (sha256 [])
  else
    let layer := chunk_hashes.map fromHex
    toHex ((merkleLoop sha256 layer).headD [])

/-- Merkle root per the spec's description: repeatedly form parents until a
single node remains; the empty list is defined as SHA-256 of the empty byte
string. -/
def merkleRootSpec (sha256 : Bytes → Bytes) : List Bytes → Bytes
  | [] => sha256 []
  | [x] => x
  | x :: y :: rest =>
    have : (parentLevel sha256 (x :: y :: rest)).length < (x :: y :: rest).length := by
      rw [parentLevel_length]; simp only [List.length_cons]; omega
    merkleRootSpec sha256 (parentLevel sha256 (x :: y :: rest))
termination_by l => l.length

/-- The implementation's level loop computes the spec's recursive root, for
every non-empty starting layer. -/
theorem merkleLoop_eq_spec (sha256 : Bytes → Bytes) :
    ∀ layer : List Bytes, layer ≠ [] →
      (merkleLoop sha256 layer).headD [] = merkleRootSpec sha256 layer := by
  intro layer
  induction layer using merkleRootSpec.induct sha256 with
  | case1 => intro h; exact absurd rfl h
  | case2 x =>
    intro _
    unfold merkleLoop merkleRootSpec
    simp
  | case3 x y rest hlt ih =>
    intro _
    unfold merkleLoop
    rw [dif_pos (by simp only [List.length_cons]; omega)]
    simp only [merkleLevel_eq_parentLevel]
    have hne : parentLevel sha256 (x :: y :: rest) ≠ [] := by
      intro he
      have hl := parentLevel_length sha256 (x :: y :: rest)
      rw [he] at hl
      simp only [List.length_nil, List.length_cons] at hl
      omega
    rw [ih hne]
    conv_rhs => rw [merkleRootSpec]

end Chunker

/-! ## `shared/crypto.py` -/

namespace Crypto

/-- `config.py`: `AES_KEY_SIZE = 32` (256 bits). -/
def AES_KEY_SIZE : Nat := 32

/-- `config.py`: `AES_NONCE_SIZE = 12` (96 bits for GCM). -/
def AES_NONCE_SIZE : Nat := 12

/-- `config.py`: `AES_TAG_SIZE = 16` (128 bits). -/
def AES_TAG_SIZE : Nat := 16

/-- The AES-256-GCM primitive of the `cryptography` package
(`AESGCM(key).encrypt` / `AESGCM(key).decrypt`, no associated data).
Library code, not part of this repository, so it is a parameter of the
embedding: `encrypt key nonce plaintext` yields ciphertext‖tag, and
`decrypt key nonce ct` yields the plaintext or `none` when the tag does
not verify (`InvalidTag`). -/
structure AEAD where
  encrypt : Bytes → Bytes → Bytes → Bytes
  decrypt : Bytes → Bytes → Bytes → Option Bytes

/-- Errors raised by the crypto wrappers: `ValueError` or
`cryptography.exceptions.InvalidTag`. -/
inductive CryptoErr
  | valueError (msg : String)
  | invalidTag
deriving DecidableEq, Repr

/-- `encrypt_chunk(chunk_data, key)`: check the key size, draw a fresh
12-byte nonce (modelled as the explicit argument `nonce`, the value
`os.urandom(AES_NONCE_SIZE)` returned), and return
nonce ‖ ciphertext‖tag. -/
def encrypt_chunk (aead : AEAD) (nonce : Bytes) (chunk_data key : Bytes) :
    Except CryptoErr Bytes :=
  if key.length ≠ AES_KEY_SIZE then
    .error (.valueError "Key must be 32 bytes")
  else
    .ok (nonce ++ aead.encrypt key nonce chunk_data)

/-- `decrypt_chunk(encrypted_data, key)`: check the key size, reject inputs
shorter than nonce length + 1, split off the 12-byte nonce and decrypt. -/
def decrypt_chunk (aead : AEAD) (encrypted_data key : Bytes) :
    Except CryptoErr Bytes :=
  if key.length ≠ AES_KEY_SIZE then
    .error (.valueError "Key must be 32 bytes")
  else if encrypted_data.length < AES_NONCE_SIZE + 1 then
    .error (.valueError "Encrypted data too short")
  else
    let nonce := encrypted_data.take AES_NONCE_SIZE
    let ciphertext := encrypted_data.drop AES_NONCE_SIZE
    match aead.decrypt key nonce ciphertext with
    | some pt => .ok pt
    | none => .error .invalidTag

/-- `compute_hash(data)` from `shared/crypto.py`: SHA-256 lowercase hex. -/
def compute_hash (sha256 : Bytes → Bytes) (data : Bytes) : String :=
  toHex (sha256 data)

end Crypto

/-- `verify_chunk_hash(chunk_data, expected_hash)` from `shared/chunker.py`:
actual lowercase hex digest equals `expected_hash.lower()`. -/
def Chunker.verify_chunk_hash (sha256 : Bytes → Bytes)
    (chunk_data : Bytes) (expected_hash : String) : Bool :=
  Chunker.sha256_bytes sha256 chunk_data = strLower expected_hash

/-! ## `node/storage_node.py` — the `/store` endpoint -/

namespace Node

/-- The node's content-addressed store: the files under `STORAGE_DIR`,
keyed by the hex hash used as the file name (`get_chunk_path`), plus the
`STATS` counters the endpoint updates. -/
structure NodeStore where
  chunks : List (String × Bytes)
  chunks_stored : Nat
  bytes_stored : Nat
deriving DecidableEq, Repr

/-- Responses of the `/store` endpoint.  `ok status hash size` is the JSON
200 response with its `status` field (`"stored"` or `"exists"`);
`badRequest` is a 400 with its `error` field. -/
inductive StoreResult
  | ok (status : String) (chunk_hash : String) (size : Nat)
  | badRequest (error : String)
deriving DecidableEq, Repr

/-- `store_chunk()` from `node/storage_node.py` (multipart path):
`chunk_data` is the uploaded bytes (`none` when no file part was sent) and
`expected_hash` the optional `chunk_hash` form field.  Python truthiness:
an absent part and the empty byte string are both falsy, and an empty
`chunk_hash` string skips the verification. -/
def store_chunk (sha256 : Bytes → Bytes) (st : NodeStore)
    (chunk_data : Option Bytes) (expected_hash : Option String) :
    StoreResult × NodeStore :=
  match chunk_data with
  | none => (.badRequest "No chunk data provided", st)
  | some data =>
    if data = [] then (.badRequest "No chunk data provided", st)
    else
      let actual_hash := toHex (sha256 data)
      let mismatch : Bool :=
        match expected_hash with
        | some e => decide (e ≠ "") && decide (actual_hash ≠ strLower e)
        | none => false
      if mismatch then
        (.badRequest "hash_mismatch", st)
      else if (st.chunks.lookup actual_hash).isSome then
        (.ok "exists" actual_hash data.length, st)
      else
        (.ok "stored" actual_hash data.length,
          { chunks := (actual_hash, data) :: st.chunks,
            chunks_stored := st.chunks_stored + 1,
            bytes_stored := st.bytes_stored + data.length })

end Node

/-! ## `backend/uploader.py` — `select_peers` -/

namespace Uploader

/-- A peer record from the discovery service; only its identity matters to
peer selection, the address fields are consumed by `measure_rtt`, which is
abstracted into the latency oracle below. -/
structure Peer where
  node_id : String
deriving DecidableEq, Repr

/-- A measured round-trip time: `measure_rtt` returns a float number of
seconds, or `float("inf")` on missing address, timeout, error or non-200
status.  `none` stands for `+∞`; finite floats are modelled as exact
rationals. -/
abbrev RTT := Option ℚ

/-- The `≤` used by `results.sort(key=lambda x: x[0])`: `+∞` is greater
than every finite latency. -/
def rttLe (x y : RTT) : Bool :=
  match x, y with
  | none, none => true
  | none, some _ => false
  | some _, none => true
  | some a, some b => a ≤ b

/-- Insert into a list sorted by RTT, before the first element it compares
`≤` to — a stable sort step, matching Python's stable `list.sort`. -/
def orderedInsert (x : RTT × Peer) : List (RTT × Peer) → List (RTT × Peer)
  | [] => [x]
  | y :: rest => if rttLe x.1 y.1 then x :: y :: rest else y :: orderedInsert x rest

/-- Stable sort of the `(rtt, peer)` measurement results ascending by RTT
(Python's `list.sort` is stable; ties keep their relative order). -/
def sortByRtt : List (RTT × Peer) → List (RTT × Peer)
  | [] => []
  | x :: rest => orderedInsert x (sortByRtt rest)

/-- `select_peers(peers, count)` from `backend/uploader.py`.  The
concurrent RTT measurement is the oracle `rtt`; `results` is the measured
list in input order (the Python gathers completed futures from a set, so
only the stable sort by RTT below determines the final order).  Sort by
RTT, take the first `count` with finite RTT, and if fewer than `count`
were responsive, fill from the infinite-latency remainder. -/
def select_peers (rtt : Peer → RTT) (peers : List Peer) (count : Nat) : List Peer :=
  if peers.isEmpty then []
  else if peers.length ≤ count then peers
  else
    let results := sortByRtt (peers.map (fun p => (rtt p, p)))
    let selected := ((results.filter (fun r => r.1.isSome)).map (·.2)).take count
    if selected.length < count then
      selected ++ ((results.filter (fun r => r.1.isNone)).map (·.2)).take (count - selected.length)
    else selected

/-- Peer selection as the spec words it: if the live peer count is ≤ R
return all peers; otherwise sort ascending by latency with `+∞` for
timeouts and errors, take the first R with finite latency, and fill the
remainder from the infinite-latency pool until R is reached or the pool is
exhausted. -/
def select_peers_spec (rtt : Peer → RTT) (peers : List Peer) (count : Nat) : List Peer :=
  if peers.length ≤ count then peers
  else
    let finite := sortByRtt ((peers.filter (fun p => (rtt p).isSome)).map (fun p => (rtt p, p)))
    let chosen := (finite.map (·.2)).take count
    chosen ++ (peers.filter (fun p => (rtt p).isNone)).take (count - chosen.length)

end Uploader

/-! ## `shared/blockchain.py` — the consensus ledger -/

namespace Blockchain

/-- Block consensus status (`BlockStatus`). -/
inductive BlockStatus
  | pending
  | confirmed
  | rejected
deriving DecidableEq, Repr

/-- One storage confirmation appended by `add_confirmation`:
`{node_id, chunk_hashes, timestamp, signature}`. -/
structure Confirmation where
  node_id : String
  chunk_hashes : List String
  timestamp : Nat
  signature : Option String
deriving DecidableEq, Repr

/-- The consensus options from `config.py`:
`CONSENSUS_MIN_CONFIRMATIONS`, `CONSENSUS_QUORUM_PERCENT` (a CPython float,
modelled as an exact rational) and `CONSENSUS_ALLOW_PENDING`. -/
structure ConsensusConfig where
  min_confirmations : Nat
  quorum_percent : ℚ
  allow_pending : Bool

/-- Python `int(total_nodes * CONSENSUS_QUORUM_PERCENT)`: truncation toward
zero of the product.  CPython evaluates the product in binary floating
point; it is modelled exactly over `ℚ`, and the truncation of `n·q` is
computed on the raw fraction `(n·q.num)/q.den` (the same rational number)
so that it stays kernel-computable.  `Int.tdiv` truncates toward zero,
exactly as Python `int()` does; `pyIntMul_eq_floor` below checks this
against the mathematical floor on the nonnegative range. -/
def pyIntMul (n : Nat) (q : ℚ) : Int :=
  Int.tdiv ((n : Int) * q.num) (q.den : Int)

/-- `calculate_required_confirmations(total_nodes)`:
`max(CONSENSUS_MIN_CONFIRMATIONS, max(1, int(total_nodes * CONSENSUS_QUORUM_PERCENT)))`. -/
def calculate_required_confirmations (cfg : ConsensusConfig) (total_nodes : Nat) : Nat :=
  let quorum_count := (max 1 (pyIntMul total_nodes cfg.quorum_percent)).toNat
  max cfg.min_confirmations quorum_count

/-- The claim's (and spec §4.5's) version of the threshold, with a ceiling:
`max(minConfirmations, ceil(quorumPercent × N))`.  Written from the spec's
words, for comparison with `calculate_required_confirmations`. -/
def requiredConfirmationsCeil (cfg : ConsensusConfig) (total_nodes : Nat) : Nat :=
  max cfg.min_confirmations (Int.toNat ⌈(total_nodes : ℚ) * cfg.quorum_percent⌉)

/-- One chain entry as persisted (`Block.to_dict()`):
`index, prev_hash, data, timestamp, hash, status, confirmations`, plus the
keys `add_confirmation` / `reject_block` may add.  `data` is the file
metadata dict, modelled by its canonical JSON serialization
(`json.dumps(..., sort_keys=True, separators=(",", ":"))`). -/
structure BlockEntry where
  index : Nat
  prev_hash : String
  data : String
  timestamp : Nat
  hash : String
  status : BlockStatus
  confirmations : List Confirmation
  confirmed_at : Option Nat := none
  rejected_at : Option Nat := none
  rejection_reason : Option String := none
deriving DecidableEq, Repr

/-- The JSON payload hashed by `Block.compute_hash`:
`json.dumps({"index": ..., "prev_hash": ..., "data": ..., "timestamp": ...},
sort_keys=True, separators=(",", ":"))` — keys in sorted order
`data, index, prev_hash, timestamp`; status and confirmations are absent. -/
def blockPayload (index : Nat) (prev_hash data : String) (timestamp : Nat) : String :=
  "\x7b\"data\":" ++ data ++ ",\"index\":" ++ toString index ++
    ",\"prev_hash\":\"" ++ prev_hash ++ "\",\"timestamp\":" ++ toString timestamp ++ "\x7d"

/-- `Block.compute_hash`: SHA-256 hex digest of the canonical payload of the
four immutable fields (status and confirmations excluded).  `sha256s` is
`hashlib.sha256(payload.encode()).hexdigest()`, a library primitive. -/
def compute_hash (sha256s : String → String) (index : Nat) (prev_hash data : String)
    (timestamp : Nat) : String :=
  sha256s (blockPayload index prev_hash data timestamp)

/-- `Block.__init__`'s `timestamp or int(time.time())`: `None` and `0` are
falsy, so they are replaced by the current time `now`. -/
def blockTimestamp (timestamp : Option Nat) (now : Nat) : Nat :=
  match timestamp with
  | some t => if t = 0 then now else t
  | none => now

/-- The genesis sentinel `"0" * 64`. -/
def genesisHash : String :=
  String.mk (List.replicate 64 '0')

/-- `get_last_hash`: hash of the last block, or the genesis sentinel. -/
def get_last_hash (chain : List BlockEntry) : String :=
  match chain.getLast? with
  | none => genesisHash
  | some b => b.hash

/-- `add_block(data, initial_confirmations, total_nodes)`, at time `now`.
The new block's status is `confirmed` if the initial confirmations already
meet quorum, else `pending` when `CONSENSUS_ALLOW_PENDING`, else the call
raises `ValueError` before appending anything.  Returns the new chain and
the appended entry. -/
def add_block (cfg : ConsensusConfig) (sha256s : String → String)
    (chain : List BlockEntry) (data : String)
    (initial_confirmations : List Confirmation) (total_nodes now : Nat) :
    Except String (List BlockEntry × BlockEntry) :=
  let index := chain.length
  let prev_hash := get_last_hash chain
  let confirmations := initial_confirmations
  let required := calculate_required_confirmations cfg total_nodes
  let status? : Except String BlockStatus :=
    if confirmations.length ≥ required then .ok .confirmed
    else if cfg.allow_pending then .ok .pending
    else .error "Consensus not reached"
  status?.map fun status =>
    let ts := blockTimestamp none now
    let entry : BlockEntry :=
      { index := index, prev_hash := prev_hash, data := data, timestamp := ts,
        hash := compute_hash sha256s index prev_hash data ts,
        status := status, confirmations := confirmations }
    (chain ++ [entry], entry)

/-- Mutate the first block satisfying `p` in place (the `for b in
self.chain: if b["hash"] == block_hash` search), returning the new chain
and the updated block when found. -/
def updateFirst (p : BlockEntry → Bool) (f : BlockEntry → BlockEntry) :
    List BlockEntry → List BlockEntry × Option BlockEntry
  | [] => ([], none)
  | b :: rest =>
    if p b then (f b :: rest, some (f b))
    else
      let r := updateFirst p f rest
      (b :: r.1, r.2)

/-- The mutation `add_confirmation` applies to the found block: skip if the
node already confirmed, else append the confirmation and, if quorum is now
met and the block is still pending, flip it to confirmed. -/
def confirmBlock (cfg : ConsensusConfig) (node_id : String)
    (chunk_hashes : List String) (signature : Option String)
    (total_nodes now : Nat) (b : BlockEntry) : BlockEntry :=
  if node_id ∈ b.confirmations.map (·.node_id) then b
  else
    let confs := b.confirmations ++
      [{ node_id := node_id, chunk_hashes := chunk_hashes,
         timestamp := now, signature := signature }]
    let required := calculate_required_confirmations cfg total_nodes
    if confs.length ≥ required ∧ b.status = .pending then
      { b with status := .confirmed, confirmations := confs, confirmed_at := some now }
    else
      { b with confirmations := confs }

/-- `add_confirmation(block_hash, node_id, chunk_hashes, signature,
total_nodes)` at time `now`: find the first block with the given hash and
apply `confirmBlock`; `none` when no block matches. -/
def add_confirmation (cfg : ConsensusConfig) (chain : List BlockEntry)
    (block_hash node_id : String) (chunk_hashes : List String)
    (signature : Option String) (total_nodes now : Nat) :
    List BlockEntry × Option BlockEntry :=
  updateFirst (fun b => decide (b.hash = block_hash))
    (confirmBlock cfg node_id chunk_hashes signature total_nodes now) chain

/-- `reject_block(block_hash, reason)` at time `now`: find the first block
with the given hash and set its status to rejected — unconditionally,
whatever the current status. -/
def reject_block (chain : List BlockEntry) (block_hash : String)
    (reason : Option String) (now : Nat) :
    List BlockEntry × Option BlockEntry :=
  updateFirst (fun b => decide (b.hash = block_hash))
    (fun b => { b with status := .rejected, rejected_at := some now,
                       rejection_reason := reason }) chain

/-- `_validate_chain`, scanning from genesis forward: position `i` must
carry index `i`, the previous block's hash (the all-zero sentinel at 0),
and a self-hash that matches the recomputation from the immutable fields
(`Block(...)` re-applies the timestamp falsiness rule, hence
`blockTimestamp`).  Any failed check raises `ValueError`; the function is
modelled as the conjunction of all checks. -/
def validateFrom (sha256s : String → String) (now : Nat) :
    Nat → String → List BlockEntry → Bool
  | _, _, [] => true
  | i, expected_prev, b :: rest =>
    decide (b.index = i) && decide (b.prev_hash = expected_prev) &&
    decide (compute_hash sha256s b.index b.prev_hash b.data
      (blockTimestamp (some b.timestamp) now) = b.hash) &&
    validateFrom sha256s now (i + 1) b.hash rest

/-- `_validate_chain` over the whole chain. -/
def validate_chain (sha256s : String → String) (now : Nat)
    (chain : List BlockEntry) : Bool :=
  validateFrom sha256s now 0 genesisHash chain

/-- A persisted block as read back by `json.load`, before migration:
`status` and `confirmations` may be absent in old chains. -/
structure RawBlock where
  index : Nat
  prev_hash : String
  data : String
  timestamp : Nat
  hash : String
  status : Option BlockStatus
  confirmations : Option (List Confirmation)
deriving DecidableEq, Repr

/-- The migration loop in `_load`: a missing status becomes `confirmed`, a
missing confirmation list becomes `[]`. -/
def migrate (r : RawBlock) : BlockEntry :=
  { index := r.index, prev_hash := r.prev_hash, data := r.data,
    timestamp := r.timestamp, hash := r.hash,
    status := r.status.getD .confirmed,
    confirmations := r.confirmations.getD [] }

/-- `_load` at time `now`: `none` means the ledger file does not exist (the
chain stays at its initial `[]`); otherwise migrate and validate.  The
whole body sits in a `try/except` that prints the error and falls back to
`self.chain = []`, so a failed validation yields the empty chain and the
ledger keeps operating. -/
def load (sha256s : String → String) (now : Nat)
    (persisted : Option (List RawBlock)) : List BlockEntry :=
  match persisted with
  | none => []
  | some raw =>
    let migrated := raw.map migrate
    if validate_chain sha256s now migrated then migrated else []

/-- The ledger calls whose effect on the chain claims C3–C5 range over. -/
inductive LedgerOp
  | addBlock (data : String) (initial_confirmations : List Confirmation)
      (total_nodes now : Nat)
  | addConfirmation (block_hash node_id : String) (chunk_hashes : List String)
      (signature : Option String) (total_nodes now : Nat)

/-- Apply one ledger call to the chain.  A failing `add_block` raises
before appending, so the chain is unchanged. -/
def runOp (cfg : ConsensusConfig) (sha256s : String → String)
    (chain : List BlockEntry) : LedgerOp → List BlockEntry
  | .addBlock d init tn now =>
    match add_block cfg sha256s chain d init tn now with
    | .ok r => r.1
    | .error _ => chain
  | .addConfirmation h nid chs sig tn now =>
    (add_confirmation cfg chain h nid chs sig tn now).1

/-- Apply a sequence of ledger calls from left to right. -/
def runOps (cfg : ConsensusConfig) (sha256s : String → String)
    (chain : List BlockEntry) (ops : List LedgerOp) : List BlockEntry :=
  ops.foldl (runOp cfg sha256s) chain

/-- Hash-link well-formedness from position `i` with expected previous hash
`prev`: indices are consecutive, each block's `prev_hash` is the previous
block's stored hash, and each stored hash is the recomputation from the
four immutable fields. -/
def linkedFrom (sha256s : String → String) : Nat → String → List BlockEntry → Prop
  | _, _, [] => True
  | i, prev, b :: rest =>
    b.index = i ∧ b.prev_hash = prev ∧
    b.hash = compute_hash sha256s b.index b.prev_hash b.data b.timestamp ∧
    linkedFrom sha256s (i + 1) b.hash rest

/-- Chain well-formedness: linked from index 0 and the genesis sentinel. -/
def chainWellFormed (sha256s : String → String) (chain : List BlockEntry) : Prop :=
  linkedFrom sha256s 0 genesisHash chain

/-- Agreement of two blocks on the immutable (hashed) fields and the
stored hash; the consensus fields may differ. -/
def coreEq (b b' : BlockEntry) : Prop :=
  b'.index = b.index ∧ b'.prev_hash = b.prev_hash ∧ b'.data = b.data ∧
  b'.timestamp = b.timestamp ∧ b'.hash = b.hash

/-- The load-time checks as the spec words them, by position: every block
carries its position as index, block 0's previous-hash is the all-zero
sentinel and every later block's previous-hash is its predecessor's stored
hash, and every block's stored hash equals the recomputation from its
immutable fields. -/
def chainChecksOut (sha256s : String → String) (now : Nat)
    (chain : List BlockEntry) : Prop :=
  (∀ (i : Nat) (b : BlockEntry), chain[i]? = some b → b.index = i) ∧
  (∀ b ∈ chain.head?, b.prev_hash = genesisHash) ∧
  List.Chain' (fun a b => b.prev_hash = a.hash) chain ∧
  (∀ b ∈ chain, compute_hash sha256s b.index b.prev_hash b.data
    (blockTimestamp (some b.timestamp) now) = b.hash)

/-- Overwrite the consensus fields (status, confirmations) of every block
by position, leaving index, prev_hash, data, timestamp and hash fixed —
the tampering C10 quantifies over. -/
def overrideConsensusFrom (f : Nat → BlockStatus × List Confirmation) :
    Nat → List BlockEntry → List BlockEntry
  | _, [] => []
  | i, b :: rest =>
    { b with status := (f i).1, confirmations := (f i).2 } ::
      overrideConsensusFrom f (i + 1) rest

end Blockchain

/-! ## `backend/app.py` — `download_file`'s streaming generator -/

namespace App

/-- One element of the file metadata's `chunks` list, as the download loop
reads it: `index`, `encrypted_hash` (the content address fetched from
peers), `original_hash` (recorded plaintext hash).  The `assignments` list
only feeds `uploader.fetch_chunk`, which is abstracted into the `fetch`
oracle. -/
structure ChunkRecord where
  index : Nat
  encrypted_hash : String
  original_hash : String
deriving DecidableEq, Repr

/-- The slice of the block's file metadata that `generate()` consumes. -/
structure FileMeta where
  chunks : List ChunkRecord
  merkle_root : String
deriving DecidableEq, Repr

/-- The exceptions `generate()` can raise for one chunk, in source order. -/
inductive DownloadErr
  | fetchFailed (index : Nat)
  | corrupted (index : Nat)
  | decryptFailed (index : Nat)
  | hashMismatch (index : Nat)
deriving DecidableEq, Repr

/-- How the streamed response body ends: `ok` is a normally exhausted
generator, `failed e` an exception raised mid-stream (the chunks yielded
before it have already been sent to the HTTP client). -/
inductive DownloadOutcome
  | ok
  | failed (e : DownloadErr)
deriving DecidableEq, Repr

/-- The per-chunk pipeline of the `for chunk_record in chunks` loop: fetch
the ciphertext by its content address, verify the ciphertext hash, decrypt
with the file key, verify the plaintext hash. -/
def processChunk (sha256 : Bytes → Bytes) (aead : Crypto.AEAD) (file_key : Bytes)
    (fetch : String → Option Bytes) (c : ChunkRecord) : Except DownloadErr Bytes :=
  match fetch c.encrypted_hash with
  | none => .error (.fetchFailed c.index)
  | some encrypted_chunk =>
    if Crypto.compute_hash sha256 encrypted_chunk ≠ c.encrypted_hash then
      .error (.corrupted c.index)
    else
      match Crypto.decrypt_chunk aead encrypted_chunk file_key with
      | .error _ => .error (.decryptFailed c.index)
      | .ok decrypted_chunk =>
        if !(Chunker.verify_chunk_hash sha256 decrypted_chunk c.original_hash) then
          .error (.hashMismatch c.index)
        else
          .ok decrypted_chunk

/-- The body of `generate()`: walk the sorted chunk records, yielding each
verified plaintext and accumulating its hash; a failed check raises,
ending the stream with the chunks yielded so far.  After the loop the
Merkle root is recomputed and compared to the stored root, but a mismatch
is only logged (`"we can't return an error here"`), so the stream still
ends normally. -/
def generateGo (sha256 : Bytes → Bytes) (aead : Crypto.AEAD) (file_key : Bytes)
    (fetch : String → Option Bytes) (merkle_root : String) :
    List ChunkRecord → List Bytes → List String → List Bytes × DownloadOutcome
  | [], yielded, decrypted_hashes =>
    let _computed_merkle := Chunker.compute_merkle_root sha256 decrypted_hashes
    (yielded, .ok)
  | c :: rest, yielded, decrypted_hashes =>
    match processChunk sha256 aead file_key fetch c with
    | .error e => (yielded, .failed e)
    | .ok decrypted_chunk =>
      generateGo sha256 aead file_key fetch merkle_root rest
        (yielded ++ [decrypted_chunk])
        (decrypted_hashes ++ [Crypto.compute_hash sha256 decrypted_chunk])

/-- `sorted(metadata["chunks"], key=lambda c: c["index"])` (stable). -/
def insertByIndex (c : ChunkRecord) : List ChunkRecord → List ChunkRecord
  | [] => [c]
  | d :: rest => if c.index ≤ d.index then c :: d :: rest else d :: insertByIndex c rest

/-- Stable sort of chunk records ascending by index. -/
def sortChunks : List ChunkRecord → List ChunkRecord
  | [] => []
  | c :: rest => insertByIndex c (sortChunks rest)

/-- `download_file`'s streamed body for one file: sort the chunk records by
index and run the generator.  Returns the list of yielded plaintext chunks
(the bytes the HTTP client receives) and how the stream ended. -/
def download_stream (sha256 : Bytes → Bytes) (aead : Crypto.AEAD) (file_key : Bytes)
    (fetch : String → Option Bytes) (meta : FileMeta) : List Bytes × DownloadOutcome :=
  generateGo sha256 aead file_key fetch meta.merkle_root (sortChunks meta.chunks) [] []

end App

/-! ## Concrete instantiations for counterexamples and witnesses

The structural theorems below hold for every hash/AEAD instantiation; the
concrete counterexamples and witnesses pick simple computable ones.  On
every concrete input used, the modelled rational arithmetic agrees with
CPython's float arithmetic (e.g. `int(3 * 0.67) = 2` both ways). -/

/-- A toy stand-in digest for concrete evaluations: the input length, one
byte.  (Which digest function is plugged in is irrelevant to every
structural property proved here.) -/
def shaLen : Bytes → Bytes := fun b => [b.length % 256]

/-- A toy stand-in string digest for concrete ledger evaluations: the
identity on the payload string. -/
def shaId : String → String := fun s => s

/-- A toy AEAD satisfying the library contract on the inputs used: the
ciphertext is the plaintext with a 16-byte tag of zeros appended. -/
def toyAEAD : Crypto.AEAD where
  encrypt := fun _ _ pt => pt ++ List.replicate 16 0
  decrypt := fun _ _ ct =>
    if 16 ≤ ct.length then some (ct.take (ct.length - 16)) else none

/-- A 32-byte key. -/
def key32 : Bytes := List.replicate 32 0

/-- A 12-byte nonce. -/
def nonce12 : Bytes := List.replicate 12 0

/-- The default consensus configuration of `config.py`:
`CONSENSUS_MIN_CONFIRMATIONS = 1`, `CONSENSUS_QUORUM_PERCENT = 0.67`,
`CONSENSUS_ALLOW_PENDING = true`. -/
def cfg1 : Blockchain.ConsensusConfig :=
  { min_confirmations := 1,
    -- 0.67, as the exact reduced fraction 67/100 (spelled with the raw
    -- constructor so that it reduces in the kernel)
    quorum_percent := ⟨67, 100, by decide, by decide⟩,
    allow_pending := true }

/-- An initial confirmation by node A. -/
def confA : Blockchain.Confirmation :=
  { node_id := "nodeA", chunk_hashes := [], timestamp := 5, signature := none }

/-- A chain holding one block created by `add_block` with one initial
confirmation and `total_nodes = 1`: required = 1, so it is born confirmed. -/
def chainConfirmed : List Blockchain.BlockEntry :=
  match Blockchain.add_block cfg1 shaId [] "null" [confA] 1 5 with
  | .ok r => r.1
  | .error _ => []

/-- A chain holding one block created by `add_block` with one initial
confirmation and `total_nodes = 3`: required = 2, so it is born pending. -/
def chainPending : List Blockchain.BlockEntry :=
  match Blockchain.add_block cfg1 shaId [] "null" [confA] 3 5 with
  | .ok r => r.1
  | .error _ => []

/-- The hash of the block in the two chains above (identity digest of the
canonical payload). -/
def hash0 : String :=
  Blockchain.compute_hash shaId 0 Blockchain.genesisHash "null" 5

/-- A persisted single-block chain whose stored hash does not match the
recomputation from its fields. -/
def rawBad : Blockchain.RawBlock :=
  { index := 0, prev_hash := Blockchain.genesisHash, data := "null",
    timestamp := 5, hash := "deadbeef", status := none, confirmations := none }

/-- A node with an empty content store. -/
def emptyStore : Node.NodeStore :=
  { chunks := [], chunks_stored := 0, bytes_stored := 0 }

/-- The five live peers of spec Scenario D. -/
def peerA : Uploader.Peer := ⟨"A"⟩
def peerB : Uploader.Peer := ⟨"B"⟩
def peerC : Uploader.Peer := ⟨"C"⟩
def peerD : Uploader.Peer := ⟨"D"⟩
def peerE : Uploader.Peer := ⟨"E"⟩

/-- Scenario D latencies (milliseconds): A 10, C 20, D 30, E 40; B times
out (`+∞`). -/
def rttScenarioD : Uploader.Peer → Uploader.RTT := fun p =>
  if p.node_id = "A" then some 10
  else if p.node_id = "C" then some 20
  else if p.node_id = "D" then some 30
  else if p.node_id = "E" then some 40
  else none

/-- Ciphertext of plaintext `[1]` under `toyAEAD` with `nonce12`
(29 bytes, so its `shaLen` content address is `"1d"`). -/
def encFix0 : Bytes := nonce12 ++ [1] ++ List.replicate 16 0

/-- Ciphertext of plaintext `[2, 3]` under `toyAEAD` with `nonce12`
(30 bytes, content address `"1e"`). -/
def encFix1 : Bytes := nonce12 ++ [2, 3] ++ List.replicate 16 0

/-- Chunk record 0: both hashes recorded correctly. -/
def chunkFix0 : App.ChunkRecord :=
  { index := 0, encrypted_hash := toHex (shaLen encFix0),
    original_hash := toHex (shaLen [1]) }

/-- Chunk record 1: ciphertext hash recorded correctly, but the recorded
plaintext hash `"aa"` does not match the decrypted plaintext `[2, 3]`. -/
def chunkFix1 : App.ChunkRecord :=
  { index := 1, encrypted_hash := toHex (shaLen encFix1), original_hash := "aa" }

/-- The peer network for the download fixtures: both ciphertexts are
retrievable at their content addresses. -/
def fetchFix : String → Option Bytes := fun h =>
  if h = toHex (shaLen encFix0) then some encFix0
  else if h = toHex (shaLen encFix1) then some encFix1
  else none

/-- File metadata whose second chunk record carries a wrong plaintext hash. -/
def metaBadChunk : App.FileMeta :=
  { chunks := [chunkFix0, chunkFix1], merkle_root := "ignored" }

/-- File metadata whose single chunk verifies but whose stored Merkle root
`"zz"` differs from the root recomputed from the plaintext hashes. -/
def metaBadRoot : App.FileMeta :=
  { chunks := [chunkFix0], merkle_root := "zz" }

/-- The plaintexts of the download fixtures, by chunk record. -/
def plainFix : App.ChunkRecord → Bytes := fun c => if c.index = 0 then [1] else [2, 3]

/-- The single block of `chainPending`, spelled out: pending with one
confirmation by node A. -/
def blockPend : Blockchain.BlockEntry :=
  { index := 0, prev_hash := Blockchain.genesisHash, data := "null",
    timestamp := 5, hash := hash0, status := .pending, confirmations := [confA] }

/-! ## Helper lemmas — consensus ledger -/

namespace Blockchain

theorem updateFirst_fst_forall₂ {R : BlockEntry → BlockEntry → Prop}
    (p : BlockEntry → Bool) (f : BlockEntry → BlockEntry)
    (hR : ∀ b, R b b) (hf : ∀ b, R b (f b)) :
    ∀ c : List BlockEntry, List.Forall₂ R c (updateFirst p f c).1
  | [] => List.Forall₂.nil
  | b :: rest => by
    by_cases hp : p b
    · simp only [updateFirst, if_pos hp]
      exact List.Forall₂.cons (hf b) (List.forall₂_same.mpr fun x _ => hR x)
    · simp only [updateFirst, if_neg hp]
      exact List.Forall₂.cons (hR b) (updateFirst_fst_forall₂ p f hR hf rest)

theorem updateFirst_snd_eq (p : BlockEntry → Bool) (f : BlockEntry → BlockEntry) :
    ∀ c : List BlockEntry, (updateFirst p f c).2 = (c.find? p).map f
  | [] => rfl
  | b :: rest => by
    by_cases hp : p b
    · simp [updateFirst, if_pos hp, List.find?_cons_of_pos _ hp]
    · simp only [updateFirst, if_neg hp, List.find?_cons_of_neg _ hp]
      exact updateFirst_snd_eq p f rest

theorem updateFirst_eq_of_first_match (p : BlockEntry → Bool) (f : BlockEntry → BlockEntry) :
    ∀ (pre : List BlockEntry) (b : BlockEntry) (post : List BlockEntry),
      (∀ x ∈ pre, p x = false) → p b = true →
      updateFirst p f (pre ++ b :: post) = (pre ++ f b :: post, some (f b))
  | [], b, post, _, hb => by
    simp [updateFirst, hb]
  | a :: pre, b, post, hpre, hb => by
    have ha : p a = false := hpre a (by simp)
    have ih := updateFirst_eq_of_first_match p f pre b post
      (fun x hx => hpre x (by simp [hx])) hb
    simp only [List.cons_append, updateFirst, ha, Bool.false_eq_true, if_false,
      List.append_eq, ih]

/-- `validateFrom` reads only the immutable fields and the stored hash. -/
theorem validateFrom_override (sha256s : String → String) (now : Nat)
    (f : Nat → BlockStatus × List Confirmation) :
    ∀ (c : List BlockEntry) (i k : Nat) (prev : String),
      validateFrom sha256s now i prev (overrideConsensusFrom f k c) =
        validateFrom sha256s now i prev c
  | [], _, _, _ => rfl
  | b :: rest, i, k, prev => by
    simp only [overrideConsensusFrom, validateFrom]
    rw [validateFrom_override sha256s now f rest (i + 1) (k + 1) b.hash]

/-- Sanity check of the truncation model: on a nonnegative quorum
percentage (the configured range is 0–1), `pyIntMul` is the mathematical
floor of `n·q`, i.e. Python's `int()` of the product. -/
theorem pyIntMul_eq_floor (n : Nat) (q : ℚ) (hq : 0 ≤ q) :
    pyIntMul n q = ⌊(n : ℚ) * q⌋ := by
  unfold pyIntMul
  have hnum : 0 ≤ q.num := Rat.num_nonneg.mpr hq
  have h1 : ((n : Int) * q.num).tdiv (q.den : Int) = ((n : Int) * q.num) / (q.den : Int) :=
    Int.tdiv_eq_ediv (by positivity) (by positivity)
  rw [h1]
  have h2 : (n : ℚ) * q = (((n : Int) * q.num : Int) : ℚ) / ((q.den : Nat) : ℚ) := by
    push_cast
    rw [mul_div_assoc, Rat.num_div_den]
  rw [h2, Rat.floor_intCast_div_natCast]

/-- Positional characterization of the forward validation scan. -/
theorem validateFrom_iff (sha256s : String → String) (now : Nat) :
    ∀ (ch : List BlockEntry) (i : Nat) (prev : String),
      validateFrom sha256s now i prev ch = true ↔
        ((∀ (j : Nat) (b : BlockEntry), ch[j]? = some b → b.index = i + j) ∧
         (∀ b ∈ ch.head?, b.prev_hash = prev) ∧
         List.Chain' (fun a b => b.prev_hash = a.hash) ch ∧
         (∀ b ∈ ch, compute_hash sha256s b.index b.prev_hash b.data
           (blockTimestamp (some b.timestamp) now) = b.hash))
  | [], i, prev => by
    simp [validateFrom]
  | b :: rest, i, prev => by
    have ih := validateFrom_iff sha256s now rest (i + 1) b.hash
    simp only [validateFrom, Bool.and_eq_true, decide_eq_true_eq, ih,
      List.chain'_cons', List.head?_cons, Option.mem_def, Option.some.injEq,
      List.mem_cons]
    constructor
    · rintro ⟨⟨⟨hidx, hprev⟩, hhash⟩, hrest_idx, hrest_head, hchain, hrest_hash⟩
      refine ⟨?_, ?_, ⟨hrest_head, hchain⟩, ?_⟩
      · intro j x hj
        cases j with
        | zero =>
          simp only [List.getElem?_cons_zero, Option.some.injEq] at hj
          subst hj
          omega
        | succ j =>
          simp only [List.getElem?_cons_succ] at hj
          have hx := hrest_idx j x hj
          omega
      · intro x hx
        rw [← hx]; exact hprev
      · rintro x (rfl | hx)
        · exact hhash
        · exact hrest_hash x hx
    · rintro ⟨hidx, hprev, ⟨hhead, hchain⟩, hhash⟩
      have hb0 : b.index = i := by
        have h0 := hidx 0 b (by simp)
        omega
      refine ⟨⟨⟨hb0, hprev b rfl⟩, hhash b (Or.inl rfl)⟩, ?_, hhead, hchain, ?_⟩
      · intro j x hj
        have hx := hidx (j + 1) x (by simpa using hj)
        omega
      · intro x hx
        exact hhash x (Or.inr hx)

theorem coreEq_refl (b : BlockEntry) : coreEq b b :=
  ⟨rfl, rfl, rfl, rfl, rfl⟩

theorem confirmBlock_coreEq (cfg : ConsensusConfig) (node_id : String)
    (chunk_hashes : List String) (signature : Option String)
    (total_nodes now : Nat) (b : BlockEntry) :
    coreEq b (confirmBlock cfg node_id chunk_hashes signature total_nodes now b) := by
  unfold confirmBlock
  by_cases hmem : node_id ∈ b.confirmations.map (·.node_id)
  · rw [if_pos hmem]; exact coreEq_refl b
  · rw [if_neg hmem]
    dsimp only
    split <;> exact ⟨rfl, rfl, rfl, rfl, rfl⟩

theorem linkedFrom_iff_of_forall₂_coreEq (sha256s : String → String)
    {cs cs' : List BlockEntry} (h : List.Forall₂ coreEq cs cs') :
    ∀ (i : Nat) (prev : String),
      linkedFrom sha256s i prev cs ↔ linkedFrom sha256s i prev cs' := by
  induction h with
  | nil => intro i prev; exact Iff.rfl
  | @cons a b l l' hab htail ih =>
    intro i prev
    obtain ⟨h1, h2, h3, h4, h5⟩ := hab
    simp only [linkedFrom, h1, h2, h3, h4, h5]
    exact and_congr Iff.rfl (and_congr Iff.rfl (and_congr Iff.rfl (ih (i + 1) a.hash)))

theorem forall₂_coreEq_map_hash {cs cs' : List BlockEntry}
    (h : List.Forall₂ coreEq cs cs') : cs'.map (·.hash) = cs.map (·.hash) := by
  induction h with
  | nil => rfl
  | cons hab htail ih => simp [ih, hab.2.2.2.2]

theorem add_confirmation_forall₂ (cfg : ConsensusConfig) (cs : List BlockEntry)
    (block_hash node_id : String) (chunk_hashes : List String)
    (signature : Option String) (total_nodes now : Nat) :
    List.Forall₂ coreEq cs
      (add_confirmation cfg cs block_hash node_id chunk_hashes signature total_nodes now).1 :=
  updateFirst_fst_forall₂ _ _ coreEq_refl
    (confirmBlock_coreEq cfg node_id chunk_hashes signature total_nodes now) cs

theorem linkedFrom_append (sha256s : String → String) :
    ∀ (cs : List BlockEntry) (i : Nat) (prev : String) (b : BlockEntry),
      linkedFrom sha256s i prev cs →
      b.index = i + cs.length →
      b.prev_hash = (match cs.getLast? with | none => prev | some a => a.hash) →
      b.hash = compute_hash sha256s b.index b.prev_hash b.data b.timestamp →
      linkedFrom sha256s i prev (cs ++ [b])
  | [], i, prev, b, _, hidx, hprev, hhash => by
    refine ⟨?_, ?_, hhash, trivial⟩
    · simpa using hidx
    · simpa using hprev
  | a :: rest, i, prev, b, hlink, hidx, hprev, hhash => by
    obtain ⟨h1, h2, h3, h4⟩ := hlink
    refine ⟨h1, h2, h3, ?_⟩
    apply linkedFrom_append sha256s rest (i + 1) a.hash b h4 ?_ ?_ hhash
    · simp only [List.length_cons] at hidx
      omega
    · cases rest with
      | nil => simpa using hprev
      | cons x t => simpa using hprev

/-- `add_block` either raises (chain unchanged) or appends exactly one
block whose index, previous-hash and self-hash fit the chain. -/
theorem add_block_chain (cfg : ConsensusConfig) (sha256s : String → String)
    (cs : List BlockEntry) (d : String) (init : List Confirmation) (tn now : Nat) :
    runOp cfg sha256s cs (.addBlock d init tn now) = cs ∨
    ∃ b : BlockEntry, runOp cfg sha256s cs (.addBlock d init tn now) = cs ++ [b] ∧
      b.index = cs.length ∧ b.prev_hash = get_last_hash cs ∧
      b.hash = compute_hash sha256s b.index b.prev_hash b.data b.timestamp := by
  unfold runOp add_block
  dsimp only
  split_ifs with h1 h2
  · right
    exact ⟨_, rfl, rfl, rfl, rfl⟩
  · right
    exact ⟨_, rfl, rfl, rfl, rfl⟩
  · left
    rfl

theorem runOp_preserves (cfg : ConsensusConfig) (sha256s : String → String)
    (cs : List BlockEntry) (op : LedgerOp)
    (h : chainWellFormed sha256s cs) : chainWellFormed sha256s (runOp cfg sha256s cs op) := by
  cases op with
  | addBlock d init tn now =>
    rcases add_block_chain cfg sha256s cs d init tn now with heq | ⟨b, heq, hidx, hprev, hhash⟩
    · rw [heq]; exact h
    · rw [heq]
      apply linkedFrom_append sha256s cs 0 genesisHash b h (by omega) ?_ hhash
      rw [hprev]
      unfold get_last_hash
      cases cs.getLast? <;> rfl
  | addConfirmation bh nid chs sig tn now =>
    have hf := add_confirmation_forall₂ cfg cs bh nid chs sig tn now
    exact (linkedFrom_iff_of_forall₂_coreEq sha256s hf 0 genesisHash).mp h

theorem runOps_preserves (cfg : ConsensusConfig) (sha256s : String → String) :
    ∀ (ops : List LedgerOp) (cs : List BlockEntry),
      chainWellFormed sha256s cs → chainWellFormed sha256s (runOps cfg sha256s cs ops)
  | [], _, h => h
  | op :: ops, cs, h =>
    runOps_preserves cfg sha256s ops (runOp cfg sha256s cs op)
      (runOp_preserves cfg sha256s cs op h)

end Blockchain

/-! ## Helper lemmas — peer selection -/

namespace Uploader

theorem rttLe_total (x y : RTT) : rttLe x y = true ∨ rttLe y x = true := by
  cases x <;> cases y <;> simp [rttLe]
  exact le_total _ _

theorem rttLe_trans {x y z : RTT} (h1 : rttLe x y = true) (h2 : rttLe y z = true) :
    rttLe x z = true := by
  cases x <;> cases y <;> cases z <;> simp [rttLe] at *
  exact le_trans h1 h2

theorem mem_orderedInsert (x z : RTT × Peer) :
    ∀ l : List (RTT × Peer), z ∈ orderedInsert x l ↔ z = x ∨ z ∈ l
  | [] => by simp [orderedInsert]
  | y :: rest => by
    by_cases h : rttLe x.1 y.1
    · simp [orderedInsert, h]
    · simp [orderedInsert, h, mem_orderedInsert x z rest]
      tauto

theorem pairwise_orderedInsert (x : RTT × Peer) :
    ∀ l : List (RTT × Peer),
      l.Pairwise (fun a b => rttLe a.1 b.1 = true) →
      (orderedInsert x l).Pairwise (fun a b => rttLe a.1 b.1 = true)
  | [], _ => by simp [orderedInsert]
  | y :: rest, hl => by
    rcases List.pairwise_cons.mp hl with ⟨hy, hrest⟩
    by_cases h : rttLe x.1 y.1
    · simp only [orderedInsert, if_pos h]
      refine List.pairwise_cons.mpr ⟨?_, hl⟩
      intro z hz
      rcases List.mem_cons.mp hz with rfl | hz'
      · exact h
      · exact rttLe_trans h (hy z hz')
    · simp only [orderedInsert, if_neg h]
      refine List.pairwise_cons.mpr ⟨?_, pairwise_orderedInsert x rest hrest⟩
      intro z hz
      rcases (mem_orderedInsert x z rest).mp hz with hzx | hz'
      · rcases rttLe_total x.1 y.1 with hxy | hyx
        · exact absurd hxy h
        · rw [hzx]; exact hyx
      · exact hy z hz'

theorem pairwise_sortByRtt :
    ∀ l : List (RTT × Peer),
      (sortByRtt l).Pairwise (fun a b => rttLe a.1 b.1 = true)
  | [] => List.Pairwise.nil
  | x :: rest => pairwise_orderedInsert x (sortByRtt rest) (pairwise_sortByRtt rest)

theorem filter_isSome_orderedInsert_of_none (x : RTT × Peer) (hx : x.1.isSome = false) :
    ∀ l : List (RTT × Peer),
      (orderedInsert x l).filter (fun r => r.1.isSome) = l.filter (fun r => r.1.isSome)
  | [] => by simp [orderedInsert, List.filter, hx]
  | y :: rest => by
    by_cases h : rttLe x.1 y.1
    · simp [orderedInsert, h, List.filter_cons, hx]
    · simp only [orderedInsert, if_neg h, List.filter_cons]
      rw [filter_isSome_orderedInsert_of_none x hx rest]

theorem filter_isSome_orderedInsert_of_some (x : RTT × Peer) (hx : x.1.isSome = true) :
    ∀ l : List (RTT × Peer),
      l.Pairwise (fun a b => rttLe a.1 b.1 = true) →
      (orderedInsert x l).filter (fun r => r.1.isSome) =
        orderedInsert x (l.filter (fun r => r.1.isSome))
  | [], _ => by simp [orderedInsert, List.filter, hx]
  | y :: rest, hl => by
    rcases List.pairwise_cons.mp hl with ⟨hy, hrest⟩
    by_cases h : rttLe x.1 y.1 = true
    · by_cases hys : y.1.isSome = true
      · simp [orderedInsert, h, List.filter_cons, hx, hys]
      · -- y has infinite latency, so everything after it does too:
        -- the finite-latency filtrate of `y :: rest` is empty.
        have hynone : y.1 = none := Option.not_isSome_iff_eq_none.mp (by simpa using hys)
        have hallnone : rest.filter (fun r => r.1.isSome) = [] := by
          apply List.filter_eq_nil_iff.mpr
          intro z hz
          have hle := hy z hz
          rw [hynone] at hle
          cases hz1 : z.1 with
          | none => simp
          | some q => rw [hz1] at hle; simp [rttLe] at hle
        simp [orderedInsert, h, List.filter_cons, hx, hys, hallnone]
    · have hys : y.1.isSome = true := by
        cases hy1 : y.1 with
        | none =>
          rw [hy1] at h
          cases hx1 : x.1 with
          | none => rw [hx1] at hx; simp at hx
          | some qx => rw [hx1] at h; simp [rttLe] at h
        | some q => simp
      simp only [orderedInsert, if_neg h, List.filter_cons, hys, if_pos]
      rw [filter_isSome_orderedInsert_of_some x hx rest hrest]

theorem filter_isSome_sortByRtt :
    ∀ l : List (RTT × Peer),
      (sortByRtt l).filter (fun r => r.1.isSome) =
        sortByRtt (l.filter (fun r => r.1.isSome))
  | [] => rfl
  | x :: rest => by
    by_cases hx : x.1.isSome = true
    · simp only [sortByRtt, List.filter_cons, hx, if_pos]
      rw [filter_isSome_orderedInsert_of_some x hx (sortByRtt rest) (pairwise_sortByRtt rest)]
      rw [filter_isSome_sortByRtt rest]
    · have hx' : x.1.isSome = false := by
        simp only [Bool.not_eq_true] at hx; exact hx
      simp only [sortByRtt, List.filter_cons, hx', Bool.false_eq_true, if_false]
      rw [filter_isSome_orderedInsert_of_none x hx' (sortByRtt rest)]
      exact filter_isSome_sortByRtt rest

theorem filter_isNone_orderedInsert (x : RTT × Peer) :
    ∀ l : List (RTT × Peer),
      (orderedInsert x l).filter (fun r => r.1.isNone) =
        (if x.1.isNone then [x] else []) ++ l.filter (fun r => r.1.isNone)
  | [] => by
    cases hx : x.1 <;> simp [orderedInsert, List.filter, hx]
  | y :: rest => by
    by_cases h : rttLe x.1 y.1 = true
    · by_cases hx : x.1.isNone = true
      · simp [orderedInsert, h, List.filter_cons, hx]
      · have hx' : x.1.isNone = false := by
          simp only [Bool.not_eq_true] at hx; exact hx
        simp [orderedInsert, h, List.filter_cons, hx']
    · have hy : y.1.isNone = false := by
        cases hy1 : y.1 with
        | none =>
          rw [hy1] at h
          cases hx1 : x.1 with
          | none => rw [hx1] at h; simp [rttLe] at h
          | some qx => rw [hx1] at h; simp [rttLe] at h
        | some q => simp
      simp only [orderedInsert, if_neg h, List.filter_cons, hy, Bool.false_eq_true, if_false]
      rw [filter_isNone_orderedInsert x rest]

theorem filter_isNone_sortByRtt :
    ∀ l : List (RTT × Peer),
      (sortByRtt l).filter (fun r => r.1.isNone) = l.filter (fun r => r.1.isNone)
  | [] => rfl
  | x :: rest => by
    simp only [sortByRtt, List.filter_cons]
    rw [filter_isNone_orderedInsert x (sortByRtt rest), filter_isNone_sortByRtt rest]
    cases hx : x.1 <;> simp [hx]

/-- `select_peers` computes exactly the spec-worded selection. -/
theorem select_peers_eq_spec (rtt : Peer → RTT) (peers : List Peer) (count : Nat) :
    select_peers rtt peers count = select_peers_spec rtt peers count := by
  unfold select_peers select_peers_spec
  by_cases hle : peers.length ≤ count
  · by_cases hemp : peers.isEmpty = true
    · rw [if_pos hemp, if_pos hle]
      exact (List.isEmpty_iff.mp hemp).symm
    · rw [if_neg hemp, if_pos hle, if_pos hle]
  · have hemp : ¬(peers.isEmpty = true) := by
      cases peers with
      | nil => simp at hle
      | cons a t => simp
    rw [if_neg hemp, if_neg hle, if_neg hle]
    dsimp only
    have r1 : (sortByRtt (peers.map (fun p => (rtt p, p)))).filter (fun r => r.1.isSome) =
        sortByRtt ((peers.filter (fun p => (rtt p).isSome)).map (fun p => (rtt p, p))) := by
      rw [filter_isSome_sortByRtt, List.filter_map]
      rfl
    have r2 : (sortByRtt (peers.map (fun p => (rtt p, p)))).filter (fun r => r.1.isNone) =
        (peers.filter (fun p => (rtt p).isNone)).map (fun p => (rtt p, p)) := by
      rw [filter_isNone_sortByRtt, List.filter_map]
      rfl
    have r3 : ((peers.filter (fun p => (rtt p).isNone)).map (fun p => (rtt p, p))).map
        (fun r => r.2) = peers.filter (fun p => (rtt p).isNone) := by
      rw [List.map_map]
      exact List.map_id _
    rw [r1, r2, r3]
    by_cases hlt :
        (((sortByRtt ((peers.filter (fun p => (rtt p).isSome)).map
          (fun p => (rtt p, p)))).map (fun r => r.2)).take count).length < count
    · rw [if_pos hlt]
    · rw [if_neg hlt]
      have hz : count -
          (((sortByRtt ((peers.filter (fun p => (rtt p).isSome)).map
            (fun p => (rtt p, p)))).map (fun r => r.2)).take count).length = 0 := by
        have hb := List.length_take_le count
          ((sortByRtt ((peers.filter (fun p => (rtt p).isSome)).map
            (fun p => (rtt p, p)))).map (fun r => r.2))
        omega
      rw [hz]
      simp

end Uploader

/-! ## Helper lemmas — download stream -/

namespace App

theorem generateGo_append_ok (sha256 : Bytes → Bytes) (aead : Crypto.AEAD)
    (file_key : Bytes) (fetch : String → Option Bytes) (merkle_root : String)
    (g : ChunkRecord → Bytes) :
    ∀ (pre rest : List ChunkRecord) (yielded : List Bytes) (hashes : List String),
      (∀ x ∈ pre, processChunk sha256 aead file_key fetch x = .ok (g x)) →
      generateGo sha256 aead file_key fetch merkle_root (pre ++ rest) yielded hashes =
        generateGo sha256 aead file_key fetch merkle_root rest (yielded ++ pre.map g)
          (hashes ++ pre.map (fun x => Crypto.compute_hash sha256 (g x)))
  | [], rest, yielded, hashes, _ => by simp
  | p :: pre, rest, yielded, hashes, hok => by
    have hp := hok p (by simp)
    simp only [List.cons_append, generateGo, hp, List.append_eq]
    rw [generateGo_append_ok sha256 aead file_key fetch merkle_root g pre rest
      (yielded ++ [g p]) (hashes ++ [Crypto.compute_hash sha256 (g p)])
      (fun x hx => hok x (by simp [hx]))]
    simp

end App

/-! ## Helper lemmas — Merkle root -/

namespace Chunker

theorem compute_merkle_root_eq_spec (sha256 : Bytes → Bytes) (chunk_hashes : List String) :
    compute_merkle_root sha256 chunk_hashes =
      toHex (merkleRootSpec sha256 (chunk_hashes.map fromHex)) := by
  cases chunk_hashes with
  | nil =>
    unfold compute_merkle_root merkleRootSpec
    rfl
  | cons a t =>
    unfold compute_merkle_root
    rw [if_neg (by simp)]
    exact congrArg toHex (merkleLoop_eq_spec sha256 _ (by simp))

theorem merkleRootSpec_three (sha256 : Bytes → Bytes) (x y z : Bytes) :
    merkleRootSpec sha256 [x, y, z] =
      sha256 (sha256 (x ++ y) ++ sha256 (z ++ z)) := by
  unfold merkleRootSpec
  simp only [parentLevel]
  unfold merkleRootSpec
  simp only [parentLevel]
  unfold merkleRootSpec
  rfl

end Chunker

/-! ## The claims -/

/-- Claim C5 (confirmed) — chain integrity: starting from the empty chain,
after any sequence of `add_block` and `add_confirmation` calls (in
particular N `add_block`s followed by arbitrary confirmations) the chain
is hash-linked from the all-zero genesis sentinel with consecutive
indices, and every stored hash is the SHA-256 of exactly index, prev_hash,
data and timestamp (`compute_hash` hashes nothing else); moreover
`add_confirmation` never changes any block's stored hash. -/
theorem C5_chain_integrity (cfg : Blockchain.ConsensusConfig)
    (sha256s : String → String) :
    (∀ ops : List Blockchain.LedgerOp,
      Blockchain.chainWellFormed sha256s (Blockchain.runOps cfg sha256s [] ops)) ∧
    (∀ (cs : List Blockchain.BlockEntry) (bh nid : String) (chs : List String)
      (sig : Option String) (tn now : Nat),
      ((Blockchain.add_confirmation cfg cs bh nid chs sig tn now).1).map (·.hash) =
        cs.map (·.hash)) :=
  ⟨fun ops => Blockchain.runOps_preserves cfg sha256s ops [] trivial,
   fun cs bh nid chs sig tn now =>
    Blockchain.forall₂_coreEq_map_hash
      (Blockchain.add_confirmation_forall₂ cfg cs bh nid chs sig tn now)⟩

/-- Claim C6 (confirmed) — `compute_merkle_root` returns the hash of the
empty byte string on the empty list, and otherwise the level-folded root
over the raw (hex-decoded) digests with the last node of an odd level
duplicated (`merkleRootSpec` is that recursion written from the spec's
words); for exactly three leaves the third is duplicated at the first
pairing level. -/
theorem C6_merkle_root (sha256 : Bytes → Bytes) :
    (∀ chunk_hashes : List String,
      Chunker.compute_merkle_root sha256 chunk_hashes =
        toHex (Chunker.merkleRootSpec sha256 (chunk_hashes.map fromHex))) ∧
    Chunker.compute_merkle_root sha256 [] = toHex (sha256 []) ∧
    (∀ a b c3 : String,
      Chunker.compute_merkle_root sha256 [a, b, c3] =
        toHex (sha256 (sha256 (fromHex a ++ fromHex b) ++
          sha256 (fromHex c3 ++ fromHex c3)))) := by
  refine ⟨Chunker.compute_merkle_root_eq_spec sha256, ?_, ?_⟩
  · unfold Chunker.compute_merkle_root
    rfl
  · intro a b c3
    rw [Chunker.compute_merkle_root_eq_spec sha256]
    simp only [List.map_cons, List.map_nil]
    rw [Chunker.merkleRootSpec_three]

/-- Claim C7 (confirmed) — round trip: for every 32-byte key, every nonce
the 12-byte `os.urandom` draw may return, and every byte string including
the empty one, decrypting the output of `encrypt_chunk` with the same key
returns the plaintext.  The AES-GCM primitive is `cryptography` library
code; its documented AEAD contract at this point (decryption inverts
encryption, ciphertext = plaintext length + 16-byte tag) enters as
hypotheses. -/
theorem C7_encrypt_decrypt_roundtrip (aead : Crypto.AEAD) (key x nonce : Bytes)
    (hkey : key.length = 32) (hnonce : nonce.length = 12)
    (hlen : (aead.encrypt key nonce x).length = x.length + 16)
    (hdec : aead.decrypt key nonce (aead.encrypt key nonce x) = some x) :
    (Crypto.encrypt_chunk aead nonce x key).bind
      (fun e => Crypto.decrypt_chunk aead e key) = .ok x := by
  have hk : ¬(key.length ≠ Crypto.AES_KEY_SIZE) := by
    rw [hkey]; exact fun h => h rfl
  unfold Crypto.encrypt_chunk
  rw [if_neg hk]
  show Crypto.decrypt_chunk aead (nonce ++ aead.encrypt key nonce x) key = .ok x
  unfold Crypto.decrypt_chunk
  rw [if_neg hk]
  rw [if_neg (show ¬((nonce ++ aead.encrypt key nonce x).length <
      Crypto.AES_NONCE_SIZE + 1) by
    rw [List.length_append, hnonce, hlen]
    unfold Crypto.AES_NONCE_SIZE
    omega)]
  dsimp only
  rw [List.take_left' (show nonce.length = Crypto.AES_NONCE_SIZE by rw [hnonce]; rfl),
    List.drop_left' (show nonce.length = Crypto.AES_NONCE_SIZE by rw [hnonce]; rfl)]
  rw [hdec]

/-- Witness for C7 at a concrete instantiation: the toy AEAD, the all-zero
32-byte key and 12-byte nonce, and the empty plaintext. -/
theorem C7_roundtrip_witness :
    (Crypto.encrypt_chunk toyAEAD nonce12 [] key32).bind
      (fun e => Crypto.decrypt_chunk toyAEAD e key32) = .ok [] :=
  C7_encrypt_decrypt_roundtrip toyAEAD key32 [] nonce12
    (by decide) (by decide) (by decide) (by decide)

/-- Claim C10 (confirmed) — the load-time validator is blind to the
consensus fields: overwriting every block's status and confirmations
(keeping index, prev_hash, data, timestamp and hash fixed) never changes
the validator's verdict, so such tampering is undetectable. -/
theorem C10_validator_blind (sha256s : String → String) (now : Nat)
    (f : Nat → Blockchain.BlockStatus × List Blockchain.Confirmation)
    (chain : List Blockchain.BlockEntry) :
    Blockchain.validate_chain sha256s now (Blockchain.overrideConsensusFrom f 0 chain) =
      Blockchain.validate_chain sha256s now chain :=
  Blockchain.validateFrom_override sha256s now f chain 0 0 Blockchain.genesisHash

/-- Counterexample to C2: a persisted one-block chain whose stored hash
fails recomputation.  Validation detects it, but `_load` swallows the
error and the ledger continues operating on the substitute empty chain —
it does not refuse to operate, contradicting "the load is a fatal error
... it does not continue serving with any substitute chain state".  (The
embedding of `_load` has no error outcome at all, because the source
catches every exception.) -/
theorem C2_counterexample :
    Blockchain.validate_chain shaId 0 ([rawBad].map Blockchain.migrate) = false ∧
    Blockchain.load shaId 0 (some [rawBad]) = [] := by
  constructor
  · decide
  · decide

/-- Claim C2 as amended: on load, every block's self-hash is recomputed
and checked and every prev-hash is checked against the prior block's hash,
scanning from genesis forward (the positional characterization below is
exactly those checks); but a failed check is not fatal — `_load` catches
the `ValueError`, discards the persisted chain, and the ledger continues
to operate with an empty chain. -/
theorem C2_amended_load (sha256s : String → String) (now : Nat)
    (raw : List Blockchain.RawBlock) :
    (Blockchain.validate_chain sha256s now (raw.map Blockchain.migrate) = true ↔
      Blockchain.chainChecksOut sha256s now (raw.map Blockchain.migrate)) ∧
    Blockchain.load sha256s now (some raw) =
      (if Blockchain.validate_chain sha256s now (raw.map Blockchain.migrate) = true
       then raw.map Blockchain.migrate else []) ∧
    Blockchain.load sha256s now none = [] := by
  refine ⟨?_, rfl, rfl⟩
  rw [Blockchain.validate_chain, Blockchain.validateFrom_iff]
  unfold Blockchain.chainChecksOut
  simp only [Nat.zero_add]

/-- Counterexample to C3: a block that reached `confirmed` via `add_block`
with a quorum-meeting initial confirmation is flipped to `rejected` by
`reject_block` — `reject_block` overwrites the status unconditionally, so
`confirmed` is not terminal. -/
theorem C3_counterexample :
    chainConfirmed.map (·.status) = [Blockchain.BlockStatus.confirmed] ∧
    (Blockchain.reject_block chainConfirmed hash0 none 9).1.map (·.status) =
      [Blockchain.BlockStatus.rejected] := by
  constructor
  · decide
  · decide

/-- Claim C3 as amended: `add_confirmation` mutates a status only
pending→confirmed (confirmed and rejected blocks keep their status under
every confirmation call), but `reject_block` sets the found block's status
to rejected unconditionally — including a block whose status is
`confirmed`; every untouched block is unchanged. -/
theorem C3_amended_status_transitions (cfg : Blockchain.ConsensusConfig)
    (cs : List Blockchain.BlockEntry) (bh nid : String) (chs : List String)
    (sig : Option String) (tn now : Nat) (reason : Option String) :
    List.Forall₂ (fun b b' => b'.status = b.status ∨
        (b.status = .pending ∧ b'.status = .confirmed))
      cs (Blockchain.add_confirmation cfg cs bh nid chs sig tn now).1 ∧
    List.Forall₂ (fun b b' => b' = b ∨ b'.status = .rejected)
      cs (Blockchain.reject_block cs bh reason now).1 ∧
    (Blockchain.reject_block cs bh reason now).2.map (·.status) =
      (Blockchain.reject_block cs bh reason now).2.map
        (fun _ => Blockchain.BlockStatus.rejected) := by
  refine ⟨?_, ?_, ?_⟩
  · apply Blockchain.updateFirst_fst_forall₂
    · intro b; exact Or.inl rfl
    · intro b
      unfold Blockchain.confirmBlock
      by_cases hmem : nid ∈ b.confirmations.map (·.node_id)
      · rw [if_pos hmem]; exact Or.inl rfl
      · rw [if_neg hmem]
        dsimp only
        split
        · rename_i hcond
          exact Or.inr ⟨hcond.2, rfl⟩
        · exact Or.inl rfl
  · apply Blockchain.updateFirst_fst_forall₂
    · intro b; exact Or.inl rfl
    · intro b; exact Or.inr rfl
  · unfold Blockchain.reject_block
    rw [Blockchain.updateFirst_snd_eq]
    cases cs.find? (fun b => decide (b.hash = bh)) <;> rfl

/-- Counterexample to C4: with the default configuration
(`minConfirmations = 1`, `quorumPercent = 0.67`) and 3 live nodes, the
claim's threshold `max(1, ceil(0.67×3)) = 3`, yet the code confirms the
pending block at the second distinct confirming peer, because it computes
`int(3 * 0.67) = 2` — truncation, not ceiling. -/
theorem C4_counterexample :
    chainPending.map (·.status) = [Blockchain.BlockStatus.pending] ∧
    (Blockchain.add_confirmation cfg1 chainPending hash0 "nodeB" [] none 3 8).1.map
      (·.status) = [Blockchain.BlockStatus.confirmed] ∧
    (Blockchain.add_confirmation cfg1 chainPending hash0 "nodeB" [] none 3 8).1.map
      (·.confirmations.length) = [2] ∧
    Blockchain.requiredConfirmationsCeil cfg1 3 = 3 := by
  refine ⟨by decide, by decide, by decide, ?_⟩
  unfold Blockchain.requiredConfirmationsCeil
  have hq : cfg1.quorum_percent = 67 / 100 := by
    apply Rat.ext <;> norm_num [cfg1]
  rw [hq]
  have h1 : (((3 : Nat) : ℚ) * (67 / 100)) = 201 / 100 := by norm_num
  rw [h1]
  have h2 : (⌈(201 : ℚ) / 100⌉ : Int) = 3 := by
    rw [Int.ceil_eq_iff]
    constructor <;> norm_num
  rw [h2]
  decide

/-- Claim C4 as amended: the pending→confirmed transition fires, on a
confirmation from a fresh peer, exactly when the confirmation count
reaches `max(minConfirmations, max(1, int(quorumPercent × N)))` — floor
(Python `int()` truncation) with an inner `max(1, ·)`, not a ceiling — and
the threshold is recomputed from the `total_nodes` passed at this arrival,
not from any count stored at block creation. -/
theorem C4_amended_quorum (cfg : Blockchain.ConsensusConfig)
    (pre post : List Blockchain.BlockEntry) (b : Blockchain.BlockEntry)
    (bh nid : String) (chs : List String) (sig : Option String) (tn now : Nat)
    (hpre : ∀ x ∈ pre, x.hash ≠ bh) (hb : b.hash = bh)
    (hpending : b.status = .pending)
    (hfresh : nid ∉ b.confirmations.map (·.node_id)) :
    ∃ b' : Blockchain.BlockEntry,
      Blockchain.add_confirmation cfg (pre ++ b :: post) bh nid chs sig tn now =
        (pre ++ b' :: post, some b') ∧
      b'.confirmations.length = b.confirmations.length + 1 ∧
      (b'.status = .confirmed ↔
        Blockchain.calculate_required_confirmations cfg tn ≤
          b.confirmations.length + 1) ∧
      Blockchain.calculate_required_confirmations cfg tn =
        max cfg.min_confirmations
          (max 1 (Blockchain.pyIntMul tn cfg.quorum_percent)).toNat := by
  refine ⟨Blockchain.confirmBlock cfg nid chs sig tn now b, ?_, ?_, ?_, rfl⟩
  · unfold Blockchain.add_confirmation
    exact Blockchain.updateFirst_eq_of_first_match _ _ pre b post
      (fun x hx => by simp [hpre x hx]) (by simp [hb])
  · unfold Blockchain.confirmBlock
    rw [if_neg hfresh]
    dsimp only
    split <;> simp
  · unfold Blockchain.confirmBlock
    rw [if_neg hfresh]
    dsimp only
    split
    · rename_i hcond
      have hlen := hcond.1
      simp only [List.length_append, List.length_cons, List.length_nil] at hlen
      exact iff_of_true rfl (by omega)
    · rename_i hcond
      rw [not_and_or] at hcond
      rcases hcond with hlt | hnp
      · refine iff_of_false ?_ ?_
        · intro hst
          rw [hpending] at hst
          exact Blockchain.BlockStatus.noConfusion hst
        · intro hreq
          apply hlt
          simp only [List.length_append, List.length_cons, List.length_nil, ge_iff_le]
          omega
      · exact absurd hpending hnp

/-- Witness for the amended C4 at the concrete pending fixture: the second
distinct confirmation with 3 live nodes flips the block to confirmed at
threshold 2. -/
theorem C4_amended_quorum_witness :
    ∃ b' : Blockchain.BlockEntry,
      Blockchain.add_confirmation cfg1 ([] ++ blockPend :: []) hash0 "nodeB" [] none 3 8 =
        ([] ++ b' :: [], some b') ∧
      b'.confirmations.length = blockPend.confirmations.length + 1 ∧
      (b'.status = .confirmed ↔
        Blockchain.calculate_required_confirmations cfg1 3 ≤
          blockPend.confirmations.length + 1) ∧
      Blockchain.calculate_required_confirmations cfg1 3 =
        max cfg1.min_confirmations
          (max 1 (Blockchain.pyIntMul 3 cfg1.quorum_percent)).toNat :=
  C4_amended_quorum cfg1 [] [] blockPend hash0 "nodeB" [] none 3 8
    (by simp) (by decide) (by decide) (by decide)

/-- Counterexample to C8: the `/store` endpoint rejects the empty payload
with 400 "No chunk data provided" (Python truthiness: `b""` is falsy) on
both calls — the first call does not yield `stored`, so the claim fails at
the empty chunk payload. -/
theorem C8_counterexample :
    Node.store_chunk shaLen emptyStore (some []) none =
      (.badRequest "No chunk data provided", emptyStore) ∧
    Node.store_chunk shaLen
        (Node.store_chunk shaLen emptyStore (some []) none).2 (some []) none =
      (.badRequest "No chunk data provided", emptyStore) := by
  constructor
  · decide
  · decide

/-- Claim C8 as amended: for every non-empty payload not already present
(and an absent, empty or matching `chunk_hash` field), storing twice
yields `stored` then `exists`; the first call adds exactly one
content-addressed entry, determined by the lookup performed before the
write, and the second call leaves the store untouched — no second copy. -/
theorem C8_amended_store_idempotent (sha : Bytes → Bytes) (st : Node.NodeStore)
    (data : Bytes) (ehash : Option String)
    (hne : data ≠ [])
    (hfresh : st.chunks.lookup (toHex (sha data)) = none)
    (hmatch : ∀ e, ehash = some e → e = "" ∨ toHex (sha data) = strLower e) :
    ∃ st' : Node.NodeStore,
      Node.store_chunk sha st (some data) ehash =
        (.ok "stored" (toHex (sha data)) data.length, st') ∧
      st'.chunks = (toHex (sha data), data) :: st.chunks ∧
      Node.store_chunk sha st' (some data) ehash =
        (.ok "exists" (toHex (sha data)) data.length, st') := by
  refine ⟨{ chunks := (toHex (sha data), data) :: st.chunks,
            chunks_stored := st.chunks_stored + 1,
            bytes_stored := st.bytes_stored + data.length }, ?_, rfl, ?_⟩
  · unfold Node.store_chunk
    dsimp only
    rw [if_neg hne]
    cases ehash with
    | none =>
      rw [if_neg (by simp)]
      rw [if_neg (by rw [hfresh]; simp)]
    | some e =>
      rcases hmatch e rfl with he | he
      · rw [if_neg (by simp [he])]
        rw [if_neg (by rw [hfresh]; simp)]
      · rw [if_neg (by simp [he])]
        rw [if_neg (by rw [hfresh]; simp)]
  · unfold Node.store_chunk
    dsimp only
    rw [if_neg hne]
    cases ehash with
    | none =>
      rw [if_neg (by simp)]
      rw [if_pos (by simp [List.lookup])]
    | some e =>
      rcases hmatch e rfl with he | he
      · rw [if_neg (by simp [he])]
        rw [if_pos (by simp [List.lookup])]
      · rw [if_neg (by simp [he])]
        rw [if_pos (by simp [List.lookup])]

/-- Witness for the amended C8: a one-byte chunk on an empty node store. -/
theorem C8_amended_store_idempotent_witness :
    ∃ st' : Node.NodeStore,
      Node.store_chunk shaLen emptyStore (some [7]) none =
        (.ok "stored" (toHex (shaLen [7])) [7].length, st') ∧
      st'.chunks = (toHex (shaLen [7]), [7]) :: emptyStore.chunks ∧
      Node.store_chunk shaLen st' (some [7]) none =
        (.ok "exists" (toHex (shaLen [7])) [7].length, st') :=
  C8_amended_store_idempotent shaLen emptyStore [7] none
    (by decide) (by decide) (by intro e he; simp at he)

/-- Claim C9 (confirmed) — peer selection: `select_peers` returns all
peers when the live count is ≤ R, and otherwise sorts ascending by
measured latency (`+∞` for timeouts and errors), takes the first R with
finite latency and fills any remainder from the infinite-latency pool
until R is reached or the pool is exhausted (`select_peers_spec` is that
description verbatim); on spec Scenario D the selected set is {A, C, D}. -/
theorem C9_select_peers :
    (∀ (rtt : Uploader.Peer → Uploader.RTT) (peers : List Uploader.Peer) (count : Nat),
      Uploader.select_peers rtt peers count = Uploader.select_peers_spec rtt peers count) ∧
    Uploader.select_peers rttScenarioD [peerA, peerB, peerC, peerD, peerE] 3 =
      [peerA, peerC, peerD] := by
  constructor
  · exact Uploader.select_peers_eq_spec
  · decide

/-- Counterexample to C1, both prongs at concrete inputs.  First: with two
chunk records where chunk 1's recorded plaintext hash is wrong, the stream
does raise at chunk 1 — but chunk 0's plaintext has already been yielded
to the HTTP client, so partial file content *is* returned.  Second: with a
single verifying chunk but a wrong stored Merkle root, the recomputed root
differs from the stored one yet the stream ends normally (`ok`) with the
full content — the mismatch is only logged, there is no IntegrityFailure. -/
theorem C1_counterexample :
    (App.download_stream shaLen toyAEAD key32 fetchFix metaBadChunk =
      ([[1]], .failed (.hashMismatch 1)) ∧ [[1]] ≠ ([] : List Bytes)) ∧
    (App.download_stream shaLen toyAEAD key32 fetchFix metaBadRoot = ([[1]], .ok) ∧
      Chunker.compute_merkle_root shaLen [Crypto.compute_hash shaLen [1]] ≠
        metaBadRoot.merkle_root) := by
  refine ⟨⟨by decide, by decide⟩, by decide, ?_⟩
  have heval : Chunker.compute_merkle_root shaLen [Crypto.compute_hash shaLen [1]] =
      "01" := by
    rw [Chunker.compute_merkle_root_eq_spec]
    rw [show ([Crypto.compute_hash shaLen [1]].map fromHex) = [[1]] from by decide]
    rw [show Chunker.merkleRootSpec shaLen [[1]] = [1] from by
      unfold Chunker.merkleRootSpec; rfl]
    decide
  rw [heval]
  decide

/-- Claim C1 as amended: a chunk whose fetch, ciphertext hash, decryption
or plaintext hash check fails aborts the stream at that chunk with the
corresponding error, but the verified plaintexts of all earlier chunks
have already been yielded to the caller (partial content is returned); and
when every chunk verifies, the stream completes normally with the full
content for *every* stored Merkle root — a root mismatch is only logged,
never surfaced as an error. -/
theorem C1_amended_download (sha256 : Bytes → Bytes) (aead : Crypto.AEAD)
    (file_key : Bytes) (fetch : String → Option Bytes) (meta : App.FileMeta)
    (g : App.ChunkRecord → Bytes) :
    (∀ (pre post : List App.ChunkRecord) (c : App.ChunkRecord) (e : App.DownloadErr),
      App.sortChunks meta.chunks = pre ++ c :: post →
      (∀ x ∈ pre, App.processChunk sha256 aead file_key fetch x = .ok (g x)) →
      App.processChunk sha256 aead file_key fetch c = .error e →
      App.download_stream sha256 aead file_key fetch meta = (pre.map g, .failed e)) ∧
    ((∀ x ∈ App.sortChunks meta.chunks,
        App.processChunk sha256 aead file_key fetch x = .ok (g x)) →
      App.download_stream sha256 aead file_key fetch meta =
        ((App.sortChunks meta.chunks).map g, .ok)) := by
  constructor
  · intro pre post c e hsplit hpre herr
    unfold App.download_stream
    rw [hsplit]
    rw [App.generateGo_append_ok sha256 aead file_key fetch meta.merkle_root g
      pre (c :: post) [] [] hpre]
    simp only [App.generateGo, herr]
    simp
  · intro hok
    unfold App.download_stream
    have happ := App.generateGo_append_ok sha256 aead file_key fetch meta.merkle_root g
      (App.sortChunks meta.chunks) [] [] [] hok
    rw [List.append_nil] at happ
    rw [happ]
    simp [App.generateGo]

/-- Witness for the amended C1 at the bad-plaintext-hash fixture: chunk 0
is yielded, then the stream fails at chunk 1. -/
theorem C1_amended_download_witness :
    App.download_stream shaLen toyAEAD key32 fetchFix metaBadChunk =
      ([chunkFix0].map plainFix, .failed (.hashMismatch 1)) :=
  (C1_amended_download shaLen toyAEAD key32 fetchFix metaBadChunk plainFix).1
    [chunkFix0] [] chunkFix1 (.hashMismatch 1) (by decide)
    (by intro x hx; rw [List.mem_singleton] at hx; subst hx; rfl) (by rfl)

end DecentraStore
